import Mathlib

/-!
Verification development for the recurring-transaction analyzer core
(`services/transaction_finder.py`): the merchant normalizer
(`normalize_merchant`), the fuzzy similarity grouper
(`group_similar_transactions`) and the recurrence detector
(`identify_recurring_transactions`), embedded shallowly.

Strings are `List Char`; amounts are exact fractions; dates are absolute day numbers
(`ℤ`), so `(d2 - d1).days` becomes integer subtraction.  Python `dict`s
(insertion-ordered) are association lists that append fresh keys at the
end and update in place on key reuse.
-/

/-- Python `\s` over ASCII: the six whitespace characters. -/
def pyIsSpace (c : Char) : Bool :=
  (c == ' ') || (c == '\t') || (c == '\n') || (c == '\r') || (c == '\x0b') || (c == '\x0c')

/-- Python `str.isalnum` restricted to ASCII. -/
def pyIsAlnum (c : Char) : Bool := c.isAlphanum

/-- Case-insensitive "the string starts with this (lowercase) pattern",
modelling a literal alternative of a regex compiled with `re.IGNORECASE`. -/
def startsLower : List Char → List Char → Bool
  | [], _ => true
  | p :: ps, s =>
    match s with
    | c :: cs => (c.toLower == p) && startsLower ps cs
    | [] => false

/-- The `#\d+` alternative of the suffix-stripping regex: `#` followed by at
least one digit. -/
def hashAt (s : List Char) : Bool :=
  match s with
  | a :: rest =>
    (a == '#') &&
      (match rest with
       | d :: _ => d.isDigit
       | [] => false)
  | [] => false

/-- One of the alternatives `Inc\.|LLC|Ltd\.|Corp\.|#\d+|Subscription|Mem`
(case-insensitively) matches at the head of the string. -/
def tokenAt (s : List Char) : Bool :=
  startsLower ['i', 'n', 'c', '.'] s ||
  startsLower ['l', 'l', 'c'] s ||
  startsLower ['l', 't', 'd', '.'] s ||
  startsLower ['c', 'o', 'r', 'p', '.'] s ||
  hashAt s ||
  startsLower ['s', 'u', 'b', 's', 'c', 'r', 'i', 'p', 't', 'i', 'o', 'n'] s ||
  startsLower ['m', 'e', 'm'] s

/-- `\s*(Inc\.|LLC|Ltd\.|Corp\.|#\d+|Subscription|Mem)` matches starting
exactly at the head of the string. -/
def matchFrom1 : List Char → Bool
  | [] => false
  | c :: rest => tokenAt (c :: rest) || (pyIsSpace c && matchFrom1 rest)

/-- `re.sub(r'\s*(Inc\.|LLC|Ltd\.|Corp\.|#\d+|Subscription|Mem).*$', '', name,
flags=re.IGNORECASE)`: everything from the leftmost match position onward is
deleted. -/
def sub1 : List Char → List Char
  | [] => []
  | c :: rest => if matchFrom1 (c :: rest) then [] else c :: sub1 rest

/-- `(?:in|at)\s+` (case-insensitive) matches at the head of the string. -/
def inatAt (s : List Char) : Bool :=
  (startsLower ['i', 'n'] s || startsLower ['a', 't'] s) &&
    (match s.drop 2 with
     | c :: _ => pyIsSpace c
     | [] => false)

/-- After the mandatory first whitespace character: `\s*(?:in|at)\s+` matches
at the head of the string. -/
def after2 : List Char → Bool
  | [] => false
  | c :: rest => inatAt (c :: rest) || (pyIsSpace c && after2 rest)

/-- `\s+(?:in|at)\s+` matches starting exactly at the head of the string. -/
def matchFrom2 : List Char → Bool
  | [] => false
  | c :: rest => pyIsSpace c && after2 rest

/-- `re.sub(r'\s+(?:in|at)\s+.*$', '', name, flags=re.IGNORECASE)`. -/
def sub2 : List Char → List Char
  | [] => []
  | c :: rest => if matchFrom2 (c :: rest) then [] else c :: sub2 rest

/-- Length of the leading whitespace run. -/
def wsRun : List Char → Nat
  | [] => 0
  | c :: rest => if pyIsSpace c then wsRun rest + 1 else 0

/-- `[A-Z]`. -/
def isUpperAZ (c : Char) : Bool := ('A' ≤ c) && (c ≤ 'Z')

/-- Length of a match of `\s+[A-Z]{2}(?:\s+|$)` at the head of the string
(`none` when it does not match here).  The `\s+` parts are greedy, as in
Python. -/
def matchLen3 (s : List Char) : Option Nat :=
  let r := wsRun s
  if r = 0 then none
  else
    match s.drop r with
    | a :: b :: rest2 =>
      if isUpperAZ a && isUpperAZ b then
        let r2 := wsRun rest2
        if r2 > 0 then some (r + 2 + r2)
        else if rest2 = [] then some (r + 2)
        else none
      else none
    | _ => none

/-- Left-to-right non-overlapping global substitution for
`re.sub(r'\s+[A-Z]{2}(?:\s+|$)', ' ', name)`, with fuel (the string length)
to make the recursion structural. -/
def sub3Go : Nat → List Char → List Char
  | 0, _ => []
  | _, [] => []
  | fuel + 1, c :: rest =>
    match matchLen3 (c :: rest) with
    | some n => ' ' :: sub3Go fuel (List.drop n (c :: rest))
    | none => c :: sub3Go fuel rest

/-- `re.sub(r'\s+[A-Z]{2}(?:\s+|$)', ' ', name)`. -/
def sub3 (s : List Char) : List Char := sub3Go s.length s

/-- `''.join(c.lower() for c in name if c.isalnum())`. -/
def alnumLower (s : List Char) : List Char := (s.filter pyIsAlnum).map Char.toLower

/-- `name.replace('amzn', 'amazon')` (left-to-right, non-overlapping). -/
def replaceAmzn : List Char → List Char
  | 'a' :: 'm' :: 'z' :: 'n' :: rest => 'a' :: 'm' :: 'a' :: 'z' :: 'o' :: 'n' :: replaceAmzn rest
  | c :: rest => c :: replaceAmzn rest
  | [] => []

/-- `name.replace('aplpay', '')` (left-to-right, non-overlapping). -/
def removeAplpay : List Char → List Char
  | 'a' :: 'p' :: 'l' :: 'p' :: 'a' :: 'y' :: rest => removeAplpay rest
  | c :: rest => c :: removeAplpay rest
  | [] => []

/-- `normalize_merchant` from `group_similar_transactions`: suffix stripping,
location stripping, state-code removal, lowercasing/alnum filtering, then the
two alias replacements, in source order. -/
def normalize_merchant (s : List Char) : List Char :=
  removeAplpay (replaceAmzn (alnumLower (sub3 (sub2 (sub1 s)))))

/-! ### `thefuzz`'s `fuzz.ratio`

`fuzz.ratio(a, b)` is the normalized indel similarity scaled to 0–100 and
rounded to the nearest integer (Python `round`, i.e. half-to-even):
`round(200 * lcs(a, b) / (len(a) + len(b)))`, and `100` when both strings
are empty.  The longest-common-subsequence length is computed with the
standard dynamic-programming row recurrence so that it evaluates cheaply. -/

/-- One cell-by-cell pass of the LCS dynamic program: `prev` is the row for
the previous character of the first string, `w` the entry just computed in
the new row. -/
def stepAux (c : Char) : List Char → List Nat → Nat → List Nat
  | b :: bs, p0 :: p1 :: ps, w =>
    let v := if c = b then p0 + 1 else max w p1
    v :: stepAux c bs (p1 :: ps) v
  | _, _, _ => []

/-- Extend the LCS row by one character of the first string. -/
def lcsStep (c : Char) (bs : List Char) (prev : List Nat) : List Nat :=
  0 :: stepAux c bs prev 0

/-- The final LCS row for `as` against `bs`. -/
def lcsVec (as bs : List Char) : List Nat :=
  as.foldl (fun prev a => lcsStep a bs prev) (List.replicate (bs.length + 1) 0)

/-- Last element of a row (0 for an empty row). -/
def lastD : List Nat → Nat
  | [] => 0
  | [x] => x
  | _ :: x :: xs => lastD (x :: xs)

/-- Length of the longest common subsequence of two character lists. -/
def lcs (as bs : List Char) : Nat := lastD (lcsVec as bs)

/-- Python `round` applied to the exact nonnegative fraction `n / d`
(`d > 0`): round half to even. -/
def pyRound (n d : ℤ) : ℤ :=
  if 2 * Int.emod n d < d then Int.ediv n d
  else if d < 2 * Int.emod n d then Int.ediv n d + 1
  else if Int.emod (Int.ediv n d) 2 = 0 then Int.ediv n d else Int.ediv n d + 1

/-- `fuzz.ratio` from `thefuzz`: `round(200·lcs/(|a|+|b|))`, with two empty
strings scoring 100. -/
def fuzzRatio (a b : List Char) : ℤ :=
  if a.length + b.length = 0 then 100
  else pyRound (200 * (lcs a b : ℤ)) ((a.length : ℤ) + (b.length : ℤ))

/-! ### Exact amounts

Python compares float amounts exactly (`==`, `<=`, arithmetic); every float
is a rational number, so amounts are modelled as exact fractions with value
(not representation) semantics, exactly as the comparisons behave in the
source.  Every fraction the analyzer builds has a positive denominator. -/

/-- An exact fractional amount. -/
structure Frac where
  num : ℤ
  den : ℤ
deriving DecidableEq, Repr

/-- `x == 0` on amounts. -/
def Frac.isZero (a : Frac) : Bool := a.num == 0

/-- Value equality of two amounts (Python `==` on floats). -/
def Frac.qEq (a b : Frac) : Bool := a.num * b.den == b.num * a.den

/-- Value comparison `a <= b` (for positive denominators). -/
def Frac.le (a b : Frac) : Bool := decide (a.num * b.den ≤ b.num * a.den)

/-- `a - b`. -/
def Frac.sub (a b : Frac) : Frac := ⟨a.num * b.den - b.num * a.den, a.den * b.den⟩

/-- `a + b`. -/
def Frac.add (a b : Frac) : Frac := ⟨a.num * b.den + b.num * a.den, a.den * b.den⟩

/-- `abs(a)` (for a positive denominator). -/
def Frac.fabs (a : Frac) : Frac := ⟨|a.num|, a.den⟩

/-- `a / b`, sign-normalized so the denominator stays positive.  Division by
a zero value would raise `ZeroDivisionError` in Python; every call site in
the model is guarded by an `isZero` test exactly where the source guards
with `try/except`. -/
def Frac.div (a b : Frac) : Frac :=
  if b.num * a.den < 0 then ⟨-(a.num * b.den), -(b.num * a.den)⟩
  else ⟨a.num * b.den, b.num * a.den⟩

/-- An integer amount. -/
def Frac.ofInt (n : ℤ) : Frac := ⟨n, 1⟩

/-- `sum(xs)` over amounts. -/
def qSum (l : List Frac) : Frac := l.foldl Frac.add ⟨0, 1⟩

/-! ### Transactions and the similarity grouper -/

/-- A transaction record: date (absolute day number), merchant text, amount. -/
structure Transaction where
  date : ℤ
  merchant : List Char
  amount : Frac
deriving DecidableEq, Repr

/-- Stable insertion of a transaction into a date-sorted list: it goes after
every record whose date is `≤` its own, as Python's stable `sorted` does. -/
def insertByDate (t : Transaction) : List Transaction → List Transaction
  | [] => [t]
  | u :: us => if u.date ≤ t.date then u :: insertByDate t us else t :: u :: us

/-- `sorted(transactions, key=lambda t: t.date)`. -/
def sortByDate (ts : List Transaction) : List Transaction :=
  ts.foldl (fun acc t => insertByDate t acc) []

/-- Scan the existing groups in creation order for the first representative
whose normalized key scores at least the threshold against the record's
normalized key. -/
def findMatchKey (normalized : List Char) (thr : ℤ) :
    List (List Char × List Transaction) → Option (List Char)
  | [] => none
  | (k, _) :: rest =>
    if fuzzRatio normalized (normalize_merchant k) ≥ thr then some k
    else findMatchKey normalized thr rest

/-- `groups[existing_merchant].append(transaction)`: append the record to the
group with the given key. -/
def appendGroup (k : List Char) (t : Transaction) :
    List (List Char × List Transaction) → List (List Char × List Transaction)
  | [] => []
  | (k', ms) :: rest =>
    if k' = k then (k', ms ++ [t]) :: rest else (k', ms) :: appendGroup k t rest

/-- `groups[transaction.merchant] = [transaction]`: dict assignment, which
overwrites in place when the key exists and appends a fresh key at the end
otherwise. -/
def setGroupNew (t : Transaction) :
    List (List Char × List Transaction) → List (List Char × List Transaction)
  | [] => [(t.merchant, [t])]
  | (k, ms) :: rest =>
    if k = t.merchant then (k, [t]) :: rest else (k, ms) :: setGroupNew t rest

/-- One iteration of the grouping loop body. -/
def groupStep (thr : ℤ) (gs : List (List Char × List Transaction)) (t : Transaction) :
    List (List Char × List Transaction) :=
  match findMatchKey (normalize_merchant t.merchant) thr gs with
  | some k => appendGroup k t gs
  | none => setGroupNew t gs

/-- `group_similar_transactions(transactions, similarity_threshold)`. -/
def group_similar_transactions (ts : List Transaction) (thr : ℤ) :
    List (List Char × List Transaction) :=
  ts.foldl (groupStep thr) []

/-- The grouping loop instrumented with the number of records that were
appended to a pre-existing group (i.e. did not create their own group). -/
def groupTrace (ts : List Transaction) (thr : ℤ) :
    List (List Char × List Transaction) × Nat :=
  ts.foldl
    (fun p t =>
      match findMatchKey (normalize_merchant t.merchant) thr p.1 with
      | some k => (appendGroup k t p.1, p.2 + 1)
      | none => (setGroupNew t p.1, p.2))
    ([], 0)

/-- Number of records merged into pre-existing groups during one grouping run. -/
def mergedCount (ts : List Transaction) (thr : ℤ) : Nat := (groupTrace ts thr).2

/-! ### Amount clustering and the recurrence detector -/

/-- Scan the existing amount clusters in creation order for the first base
amount within relative tolerance
(`abs(trans.amount - base_amount) / base_amount <= threshold`).  A zero base
would raise `ZeroDivisionError` in the source, which is caught and skipped
(`continue`), i.e. treated as a non-match. -/
def findClusterBase (amt v : Frac) : List (Frac × List Transaction) → Option Frac
  | [] => none
  | (b, _) :: rest =>
    if b.isZero then findClusterBase amt v rest
    else if Frac.le (Frac.div (Frac.fabs (Frac.sub amt b)) b) v then some b
    else findClusterBase amt v rest

/-- `amount_groups[base_amount].append(trans)`: keys are compared by float
value. -/
def appendCluster (b : Frac) (t : Transaction) :
    List (Frac × List Transaction) → List (Frac × List Transaction)
  | [] => []
  | (b', ms) :: rest =>
    if b'.qEq b then (b', ms ++ [t]) :: rest else (b', ms) :: appendCluster b t rest

/-- `amount_groups[trans.amount] = [trans]`: dict assignment (overwrite the
value in place, keeping the original key, when an equal key exists; else
append at the end). -/
def setClusterNew (t : Transaction) :
    List (Frac × List Transaction) → List (Frac × List Transaction)
  | [] => [(t.amount, [t])]
  | (b, ms) :: rest =>
    if b.qEq t.amount then (b, [t]) :: rest else (b, ms) :: setClusterNew t rest

/-- One iteration of the amount-clustering loop body: zero-amount records are
skipped entirely. -/
def clusterStep (v : Frac) (cs : List (Frac × List Transaction)) (t : Transaction) :
    List (Frac × List Transaction) :=
  if t.amount.isZero then cs
  else
    match findClusterBase t.amount v cs with
    | some b => appendCluster b t cs
    | none => setClusterNew t cs

/-- The `amount_groups` dict built from the date-sorted members of one group. -/
def amountClusters (ts : List Transaction) (v : Frac) : List (Frac × List Transaction) :=
  ts.foldl (clusterStep v) []

/-- `[t.amount for t in similar_transactions if t.amount != 0]`. -/
def validAmounts (similar : List Transaction) : List Frac :=
  (similar.filter (fun t => !t.amount.isZero)).map Transaction.amount

/-- `avg_amount = sum(valid_amounts) / len(valid_amounts)`: the monthly cost
of a qualifying cluster. -/
def meanAmount (similar : List Transaction) : Frac :=
  Frac.div (qSum (validAmounts similar)) (Frac.ofInt ((validAmounts similar).length : ℤ))

/-- Consecutive day gaps of a (date-sorted) member list. -/
def intervalsOf : List Transaction → List ℤ
  | a :: b :: rest => (b.date - a.date) :: intervalsOf (b :: rest)
  | _ => []

/-- The `intervals` list: consecutive gaps, keeping only those
`≤ max_days_between`. -/
def filteredIntervals (similar : List Transaction) (md : ℤ) : List ℤ :=
  (intervalsOf similar).filter (fun d => decide (d ≤ md))

/-- `intervals and (len(intervals) >= min_occurrences - 1 and max(intervals)
<= max_days_between)`. -/
def intervalsOK (similar : List Transaction) (mo md : ℤ) : Bool :=
  match filteredIntervals similar md with
  | [] => false
  | d :: ds =>
    decide ((((d :: ds).length : ℤ)) ≥ mo - 1) && decide (List.foldl max d ds ≤ md)

/-- The full per-cluster test before the `merchant not in recurring` check:
member count, interval regularity, and a non-empty `valid_amounts` list. -/
def clusterFullCond (similar : List Transaction) (mo md : ℤ) : Bool :=
  decide ((similar.length : ℤ) ≥ mo) && intervalsOK similar mo md &&
    !(validAmounts similar).isEmpty

/-- First-match association-list lookup (`recurring[merchant]`,
`merchant not in recurring`). -/
def lookupKey (k : List Char) : List (List Char × List Transaction) → Option (List Transaction)
  | [] => none
  | (k', v) :: rest => if k' = k then some v else lookupKey k rest

/-- One iteration over an amount cluster: append `(merchant, members)` to the
`recurring` dict when the cluster qualifies and the merchant is not already
present. -/
def idClusterStep (m : List Char) (mo md : ℤ)
    (r : List (List Char × List Transaction)) (c : Frac × List Transaction) :
    List (List Char × List Transaction) :=
  if clusterFullCond c.2 mo md && (lookupKey m r).isNone then r ++ [(m, c.2)] else r

/-- Iterate all amount clusters of one merchant group. -/
def idClusters (m : List Char) (cs : List (Frac × List Transaction)) (mo md : ℤ)
    (r : List (List Char × List Transaction)) : List (List Char × List Transaction) :=
  cs.foldl (idClusterStep m mo md) r

/-- One iteration over a merchant group: skip groups below `min_occurrences`,
otherwise sort by date, cluster by amount, and test each cluster. -/
def identStep (mo md : ℤ) (v : Frac) (r : List (List Char × List Transaction))
    (g : List Char × List Transaction) : List (List Char × List Transaction) :=
  if (g.2.length : ℤ) < mo then r
  else idClusters g.1 (amountClusters (sortByDate g.2) v) mo md r

/-- `identify_recurring_transactions(grouped_transactions, min_occurrences,
max_days_between, amount_variance_threshold)`. -/
def identify_recurring_transactions (grouped : List (List Char × List Transaction))
    (mo md : ℤ) (v : Frac) : List (List Char × List Transaction) :=
  grouped.foldl (identStep mo md v) []

/-- The member list of the first cluster (in creation order) passing the full
per-cluster test. -/
def firstQualifying (cs : List (Frac × List Transaction)) (mo md : ℤ) :
    Option (List Transaction) :=
  (cs.find? (fun c => clusterFullCond c.2 mo md)).map Prod.snd

/-! ### Invariant predicates and concrete inputs used by the claims -/

/-- Invariant of the grouping dict: every group is non-empty, its key is the
merchant text of its first record, and every later member scored at least
the threshold against the representative's Canonical Key when it was
appended. -/
def GroupInv (thr : ℤ) (gs : List (List Char × List Transaction)) : Prop :=
  ∀ p ∈ gs, ∃ t0 rest, p.2 = t0 :: rest ∧ t0.merchant = p.1 ∧
    ∀ t ∈ rest, thr ≤ fuzzRatio (normalize_merchant t.merchant) (normalize_merchant p.1)

/-- Invariant of the amount-cluster dict: every base amount is non-zero and
every member has a non-zero amount. -/
def ClusterInv (cs : List (Frac × List Transaction)) : Prop :=
  ∀ p ∈ cs, p.1.isZero = false ∧ ∀ t ∈ p.2, t.amount.isZero = false

/-- 01/15/2024, "Netflix #123", $19.99 (dates are 2024 day-of-year numbers). -/
def txNetflix1 : Transaction := ⟨15, "Netflix #123".toList, ⟨1999, 100⟩⟩

/-- 02/15/2024, "NETFLIX SUBSCRIPTION", $19.99. -/
def txNetflix2 : Transaction := ⟨46, "NETFLIX SUBSCRIPTION".toList, ⟨1999, 100⟩⟩

/-- 01/20/2024, "Amazon Prime*123", $14.99. -/
def txAmazon1 : Transaction := ⟨20, "Amazon Prime*123".toList, ⟨1499, 100⟩⟩

/-- 02/20/2024, "Amazon Prime Mem", $14.99. -/
def txAmazon2 : Transaction := ⟨51, "Amazon Prime Mem".toList, ⟨1499, 100⟩⟩

/-- 03/20/2024, "AMZN Prime", $14.99. -/
def txAmazon3 : Transaction := ⟨80, "AMZN Prime".toList, ⟨1499, 100⟩⟩

/-- 01/25/2024, "Grocery Store", $52.47. -/
def txGrocery : Transaction := ⟨25, "Grocery Store".toList, ⟨5247, 100⟩⟩

/-- The six-record scenario input, in the spec's order. -/
def scenarioSix : List Transaction :=
  [txNetflix1, txNetflix2, txAmazon1, txAmazon2, txAmazon3, txGrocery]

/-- Four records whose normalized keys are pairwise scored
40 (hub vs. anchor), 50 (satellites vs. hub), 20 (satellites vs. anchor) and
0 (satellite vs. satellite), exhibiting non-monotone merge counts. -/
def txAnchor : Transaction := ⟨0, "ccddeeeeeeee".toList, ⟨5, 1⟩⟩

/-- The hub record: scores 40 against the anchor, 50 against each satellite. -/
def txHub : Transaction := ⟨1, "ccccdddd".toList, ⟨5, 1⟩⟩

/-- First satellite: scores 50 against the hub, 20 against the anchor. -/
def txSatC : Transaction := ⟨2, "cccccccc".toList, ⟨5, 1⟩⟩

/-- Second satellite: scores 50 against the hub, 20 against the anchor, 0
against the first satellite. -/
def txSatD : Transaction := ⟨3, "dddddddd".toList, ⟨5, 1⟩⟩

/-- The four-record threshold-monotonicity counterexample input. -/
def fourRecords : List Transaction := [txAnchor, txHub, txSatC, txSatD]

/-- A record whose merchant text is a single space (empty Canonical Key). -/
def txBlank1 : Transaction := ⟨0, [' '], ⟨1, 1⟩⟩

/-- A record whose merchant text is a single tab (empty Canonical Key). -/
def txBlank2 : Transaction := ⟨1, ['\t'], ⟨1, 1⟩⟩

/-- Two same-merchant, same-amount records 90 days apart. -/
def txGym1 : Transaction := ⟨0, "Gym".toList, ⟨50, 1⟩⟩

/-- The second gym record, 90 days after the first. -/
def txGym2 : Transaction := ⟨90, "Gym".toList, ⟨50, 1⟩⟩

/-- Three same-merchant records with consecutive gaps of 31 and 181 days. -/
def txSpot1 : Transaction := ⟨0, "Spotify".toList, ⟨10, 1⟩⟩

/-- Second record, 31 days after the first. -/
def txSpot2 : Transaction := ⟨31, "Spotify".toList, ⟨10, 1⟩⟩

/-- Third record, 181 days after the second, amount within the 10% band. -/
def txSpot3 : Transaction := ⟨212, "Spotify".toList, ⟨11, 1⟩⟩

/-- One merchant with two concurrent price points: first $10 charge. -/
def txDualA1 : Transaction := ⟨0, "Dual".toList, ⟨10, 1⟩⟩

/-- First $100 charge, 5 days later. -/
def txDualB1 : Transaction := ⟨5, "Dual".toList, ⟨100, 1⟩⟩

/-- Second $10 charge, 31 days after the first. -/
def txDualA2 : Transaction := ⟨31, "Dual".toList, ⟨10, 1⟩⟩

/-- Second $100 charge, 31 days after the first $100 charge. -/
def txDualB2 : Transaction := ⟨36, "Dual".toList, ⟨100, 1⟩⟩

/-- The two-price-point member list (both amount clusters qualify). -/
def dualMembers : List Transaction := [txDualA1, txDualB1, txDualA2, txDualB2]

/-! ### Helper lemmas: empty-string similarity scores -/

theorem lastD_replicate (n : Nat) : lastD (List.replicate (n + 1) 0) = 0 := by
  induction n with
  | zero => rfl
  | succ n ih =>
    rw [List.replicate_succ, List.replicate_succ]
    show lastD (0 :: List.replicate n 0) = 0
    rw [← List.replicate_succ]
    exact ih

theorem lcs_nil_left (bs : List Char) : lcs [] bs = 0 :=
  lastD_replicate bs.length

theorem foldl_lcsStep_nil (as : List Char) :
    List.foldl (fun prev a => lcsStep a [] prev) [0] as = [0] := by
  induction as with
  | nil => rfl
  | cons a as ih => simpa [lcsStep, stepAux] using ih

theorem lcs_nil_right (as : List Char) : lcs as [] = 0 := by
  show lastD (lcsVec as []) = 0
  have h : lcsVec as [] = [0] := foldl_lcsStep_nil as
  rw [h]
  rfl

theorem pyRound_zero {d : ℤ} (hd : 0 < d) : pyRound 0 d = 0 := by
  unfold pyRound
  rw [show Int.emod 0 d = 0 from Int.zero_emod d, show Int.ediv 0 d = 0 from Int.zero_ediv d]
  simp [hd]

theorem fuzzRatio_nil_left (b : List Char) (h : b ≠ []) : fuzzRatio [] b = 0 := by
  have hb : b.length ≠ 0 := fun hh => h (List.length_eq_zero.mp hh)
  have hd : (0 : ℤ) < (List.length ([] : List Char) : ℤ) + (b.length : ℤ) := by
    simp only [List.length_nil, Nat.cast_zero, zero_add]
    exact_mod_cast Nat.pos_of_ne_zero hb
  unfold fuzzRatio
  rw [if_neg (by simpa using hb), lcs_nil_left]
  simpa using pyRound_zero hd

theorem fuzzRatio_nil_right (a : List Char) (h : a ≠ []) : fuzzRatio a [] = 0 := by
  have ha : a.length ≠ 0 := fun hh => h (List.length_eq_zero.mp hh)
  have hd : (0 : ℤ) < (a.length : ℤ) + (List.length ([] : List Char) : ℤ) := by
    simp only [List.length_nil, Nat.cast_zero, add_zero]
    exact_mod_cast Nat.pos_of_ne_zero ha
  unfold fuzzRatio
  rw [if_neg (by simpa using ha), lcs_nil_right]
  simpa using pyRound_zero hd

/-! ### Helper lemmas: whitespace-only strings normalize to the empty key -/

theorem ws_chars {c : Char} (h : pyIsSpace c = true) :
    c = ' ' ∨ c = '\t' ∨ c = '\n' ∨ c = '\r' ∨ c = '\x0b' ∨ c = '\x0c' := by
  simp only [pyIsSpace, Bool.or_eq_true, beq_iff_eq] at h
  tauto

theorem ws_toLower {c : Char} (h : pyIsSpace c = true) : c.toLower = c := by
  rcases ws_chars h with h | h | h | h | h | h <;> subst h <;> decide

theorem ws_not_alnum {c : Char} (h : pyIsSpace c = true) : pyIsAlnum c = false := by
  rcases ws_chars h with h | h | h | h | h | h <;> subst h <;> decide

theorem ws_ne_char {c : Char} (d : Char) (h : pyIsSpace c = true)
    (hd : pyIsSpace d = false) : (c == d) = false := by
  refine beq_false_of_ne fun he => ?_
  rw [he] at h
  rw [h] at hd
  cases hd

theorem ws_startsLower (p : Char) (ps : List Char) {c : Char} (cs : List Char)
    (hc : pyIsSpace c = true) (hp : pyIsSpace p = false) :
    startsLower (p :: ps) (c :: cs) = false := by
  have h2 : (c.toLower == p) = false := by
    rw [ws_toLower hc]
    exact ws_ne_char p hc hp
  show ((c.toLower == p) && startsLower ps cs) = false
  rw [h2]
  rfl

theorem hashAt_ws {c : Char} (cs : List Char) (hc : pyIsSpace c = true) :
    hashAt (c :: cs) = false := by
  have h2 : (c == '#') = false := ws_ne_char '#' hc (by decide)
  show ((c == '#') && _) = false
  rw [h2]
  rfl

theorem tokenAt_ws {c : Char} (cs : List Char) (hc : pyIsSpace c = true) :
    tokenAt (c :: cs) = false := by
  unfold tokenAt
  rw [ws_startsLower 'i' _ _ hc (by decide), ws_startsLower 'l' _ _ hc (by decide),
    ws_startsLower 'l' _ _ hc (by decide), ws_startsLower 'c' _ _ hc (by decide),
    hashAt_ws cs hc, ws_startsLower 's' _ _ hc (by decide),
    ws_startsLower 'm' _ _ hc (by decide)]
  rfl

theorem matchFrom1_ws : ∀ {s : List Char}, (∀ c ∈ s, pyIsSpace c = true) →
    matchFrom1 s = false := by
  intro s
  induction s with
  | nil => intro; rfl
  | cons c rest ih =>
    intro h
    have hc := h c (by simp)
    show (tokenAt (c :: rest) || (pyIsSpace c && matchFrom1 rest)) = false
    rw [tokenAt_ws rest hc, ih fun d hd => h d (by simp [hd])]
    simp

theorem sub1_ws : ∀ {s : List Char}, (∀ c ∈ s, pyIsSpace c = true) → sub1 s = s := by
  intro s
  induction s with
  | nil => intro; rfl
  | cons c rest ih =>
    intro h
    show (if matchFrom1 (c :: rest) then [] else c :: sub1 rest) = c :: rest
    rw [matchFrom1_ws h, if_neg (by simp), ih fun d hd => h d (by simp [hd])]

theorem inatAt_ws {c : Char} (cs : List Char) (hc : pyIsSpace c = true) :
    inatAt (c :: cs) = false := by
  unfold inatAt
  rw [ws_startsLower 'i' _ _ hc (by decide), ws_startsLower 'a' _ _ hc (by decide)]
  rfl

theorem after2_ws : ∀ {s : List Char}, (∀ c ∈ s, pyIsSpace c = true) →
    after2 s = false := by
  intro s
  induction s with
  | nil => intro; rfl
  | cons c rest ih =>
    intro h
    have hc := h c (by simp)
    show (inatAt (c :: rest) || (pyIsSpace c && after2 rest)) = false
    rw [inatAt_ws rest hc, ih fun d hd => h d (by simp [hd])]
    simp

theorem matchFrom2_ws {s : List Char} (h : ∀ c ∈ s, pyIsSpace c = true) :
    matchFrom2 s = false := by
  cases s with
  | nil => rfl
  | cons c rest =>
    show (pyIsSpace c && after2 rest) = false
    rw [after2_ws fun d hd => h d (by simp [hd])]
    simp

theorem sub2_ws : ∀ {s : List Char}, (∀ c ∈ s, pyIsSpace c = true) → sub2 s = s := by
  intro s
  induction s with
  | nil => intro; rfl
  | cons c rest ih =>
    intro h
    show (if matchFrom2 (c :: rest) then [] else c :: sub2 rest) = c :: rest
    rw [matchFrom2_ws h, if_neg (by simp), ih fun d hd => h d (by simp [hd])]

theorem wsRun_all {s : List Char} (h : ∀ c ∈ s, pyIsSpace c = true) :
    wsRun s = s.length := by
  induction s with
  | nil => rfl
  | cons c rest ih =>
    show (if pyIsSpace c then wsRun rest + 1 else 0) = rest.length + 1
    rw [h c (by simp), if_pos rfl, ih fun d hd => h d (by simp [hd])]

theorem matchLen3_ws {s : List Char} (h : ∀ c ∈ s, pyIsSpace c = true) :
    matchLen3 s = none := by
  unfold matchLen3
  by_cases hr : wsRun s = 0
  · rw [if_pos hr]
  · rw [if_neg hr, wsRun_all h, List.drop_length]

theorem sub3Go_ws : ∀ (fuel : Nat) {s : List Char},
    (∀ c ∈ s, pyIsSpace c = true) → sub3Go fuel s = s.take fuel := by
  intro fuel
  induction fuel with
  | zero => intro s _; cases s <;> rfl
  | succ fuel ih =>
    intro s h
    cases s with
    | nil => rfl
    | cons c rest =>
      show (match matchLen3 (c :: rest) with
            | some n => ' ' :: sub3Go fuel (List.drop n (c :: rest))
            | none => c :: sub3Go fuel rest) = c :: rest.take fuel
      rw [matchLen3_ws h]
      exact congrArg (c :: ·) (ih fun d hd => h d (by simp [hd]))

theorem sub3_ws {s : List Char} (h : ∀ c ∈ s, pyIsSpace c = true) : sub3 s = s := by
  show sub3Go s.length s = s
  rw [sub3Go_ws s.length h, List.take_length]

theorem alnumLower_ws {s : List Char} (h : ∀ c ∈ s, pyIsSpace c = true) :
    alnumLower s = [] := by
  unfold alnumLower
  have hf : s.filter pyIsAlnum = [] :=
    List.filter_eq_nil_iff.mpr fun a ha => by rw [ws_not_alnum (h a ha)]; simp
  rw [hf]
  rfl

/-! ### Helper lemmas: grouping invariants -/

theorem findMatchKey_some {n : List Char} {thr : ℤ}
    {gs : List (List Char × List Transaction)} {k : List Char}
    (h : findMatchKey n thr gs = some k) :
    thr ≤ fuzzRatio n (normalize_merchant k) := by
  induction gs with
  | nil => simp [findMatchKey] at h
  | cons g rest ih =>
    obtain ⟨k', ms⟩ := g
    by_cases hc : fuzzRatio n (normalize_merchant k') ≥ thr
    · rw [show findMatchKey n thr ((k', ms) :: rest) = some k' from by
        simp [findMatchKey, hc]] at h
      cases h
      exact hc
    · rw [show findMatchKey n thr ((k', ms) :: rest) = findMatchKey n thr rest from by
        simp [findMatchKey, hc]] at h
      exact ih h

theorem mem_appendGroup {k : List Char} {t : Transaction}
    {gs : List (List Char × List Transaction)} {p : List Char × List Transaction}
    (h : p ∈ appendGroup k t gs) :
    p ∈ gs ∨ ∃ ms, (k, ms) ∈ gs ∧ p = (k, ms ++ [t]) := by
  induction gs with
  | nil => simp [appendGroup] at h
  | cons g rest ih =>
    obtain ⟨k', ms'⟩ := g
    by_cases hk : k' = k
    · subst hk
      rw [show appendGroup k' t ((k', ms') :: rest) = (k', ms' ++ [t]) :: rest from by
        simp [appendGroup]] at h
      rcases List.mem_cons.mp h with h | h
      · exact Or.inr ⟨ms', by simp, h⟩
      · exact Or.inl (List.mem_cons_of_mem _ h)
    · rw [show appendGroup k t ((k', ms') :: rest) = (k', ms') :: appendGroup k t rest from by
        simp [appendGroup, hk]] at h
      rcases List.mem_cons.mp h with h | h
      · exact Or.inl (by simp [h])
      · rcases ih h with h | ⟨ms, hm, hp⟩
        · exact Or.inl (List.mem_cons_of_mem _ h)
        · exact Or.inr ⟨ms, List.mem_cons_of_mem _ hm, hp⟩

theorem mem_setGroupNew {t : Transaction}
    {gs : List (List Char × List Transaction)} {p : List Char × List Transaction}
    (h : p ∈ setGroupNew t gs) :
    p ∈ gs ∨ p = (t.merchant, [t]) := by
  induction gs with
  | nil =>
    simp [setGroupNew] at h
    exact Or.inr h
  | cons g rest ih =>
    obtain ⟨k', ms'⟩ := g
    by_cases hk : k' = t.merchant
    · subst hk
      rw [show setGroupNew t ((t.merchant, ms') :: rest) = (t.merchant, [t]) :: rest from by
        simp [setGroupNew]] at h
      rcases List.mem_cons.mp h with h | h
      · exact Or.inr h
      · exact Or.inl (List.mem_cons_of_mem _ h)
    · rw [show setGroupNew t ((k', ms') :: rest) = (k', ms') :: setGroupNew t rest from by
        simp [setGroupNew, hk]] at h
      rcases List.mem_cons.mp h with h | h
      · exact Or.inl (by simp [h])
      · rcases ih h with h | h
        · exact Or.inl (List.mem_cons_of_mem _ h)
        · exact Or.inr h

theorem groupStep_inv {thr : ℤ} {gs : List (List Char × List Transaction)}
    (t : Transaction) (h : GroupInv thr gs) : GroupInv thr (groupStep thr gs t) := by
  unfold groupStep
  cases hf : findMatchKey (normalize_merchant t.merchant) thr gs with
  | none =>
    intro p hp
    rcases mem_setGroupNew hp with hp | hp
    · exact h p hp
    · subst hp
      exact ⟨t, [], rfl, rfl, by simp⟩
  | some k =>
    intro p hp
    rcases mem_appendGroup hp with hp | ⟨ms, hm, hp⟩
    · exact h p hp
    · subst hp
      obtain ⟨t0, rest, hms, hmerch, hrest⟩ := h (k, ms) hm
      refine ⟨t0, rest ++ [t], by rw [show ms ++ [t] = (t0 :: rest) ++ [t] from by rw [← hms]]; simp, hmerch, ?_⟩
      intro u hu
      rcases List.mem_append.mp hu with hu | hu
      · exact hrest u hu
      · rw [List.mem_singleton.mp hu]
        exact findMatchKey_some hf

theorem group_inv (ts : List Transaction) (thr : ℤ) :
    GroupInv thr (group_similar_transactions ts thr) := by
  suffices h : ∀ gs0, GroupInv thr gs0 → GroupInv thr (List.foldl (groupStep thr) gs0 ts) by
    exact h [] (by intro p hp; simp at hp)
  induction ts with
  | nil => intro gs0 h0; exact h0
  | cons t rest ih =>
    intro gs0 h0
    exact ih _ (groupStep_inv t h0)

theorem regroup_aux (thr : ℤ) (k : List Char) :
    ∀ (rest pre : List Transaction),
      (∀ t ∈ rest, thr ≤ fuzzRatio (normalize_merchant t.merchant) (normalize_merchant k)) →
      List.foldl (groupStep thr) [(k, pre)] rest = [(k, pre ++ rest)] := by
  intro rest
  induction rest with
  | nil => intro pre _; simp
  | cons t rest ih =>
    intro pre h
    have ht : fuzzRatio (normalize_merchant t.merchant) (normalize_merchant k) ≥ thr :=
      h t (by simp)
    have hstep : groupStep thr [(k, pre)] t = [(k, pre ++ [t])] := by
      unfold groupStep
      rw [show findMatchKey (normalize_merchant t.merchant) thr [(k, pre)] = some k from by
        simp [findMatchKey, ht]]
      simp [appendGroup]
    rw [List.foldl_cons, hstep, ih (pre ++ [t]) fun u hu => h u (by simp [hu])]
    simp

/-! ### Helper lemmas: amount clustering invariants -/

theorem mem_appendCluster {b : Frac} {t : Transaction}
    {cs : List (Frac × List Transaction)} {p : Frac × List Transaction}
    (h : p ∈ appendCluster b t cs) :
    p ∈ cs ∨ ∃ b' ms, (b', ms) ∈ cs ∧ p = (b', ms ++ [t]) := by
  induction cs with
  | nil => simp [appendCluster] at h
  | cons c rest ih =>
    obtain ⟨b'', ms''⟩ := c
    by_cases hk : b''.qEq b
    · rw [show appendCluster b t ((b'', ms'') :: rest) = (b'', ms'' ++ [t]) :: rest from by
        simp [appendCluster, hk]] at h
      rcases List.mem_cons.mp h with h | h
      · exact Or.inr ⟨b'', ms'', by simp, h⟩
      · exact Or.inl (List.mem_cons_of_mem _ h)
    · rw [show appendCluster b t ((b'', ms'') :: rest) = (b'', ms'') :: appendCluster b t rest from by
        simp [appendCluster, hk]] at h
      rcases List.mem_cons.mp h with h | h
      · exact Or.inl (by simp [h])
      · rcases ih h with h | ⟨b', ms, hm, hp⟩
        · exact Or.inl (List.mem_cons_of_mem _ h)
        · exact Or.inr ⟨b', ms, List.mem_cons_of_mem _ hm, hp⟩

theorem mem_setClusterNew {t : Transaction}
    {cs : List (Frac × List Transaction)} {p : Frac × List Transaction}
    (h : p ∈ setClusterNew t cs) :
    p ∈ cs ∨ p = (t.amount, [t]) ∨ ∃ b' ms, (b', ms) ∈ cs ∧ p = (b', [t]) := by
  induction cs with
  | nil =>
    simp [setClusterNew] at h
    exact Or.inr (Or.inl h)
  | cons c rest ih =>
    obtain ⟨b'', ms''⟩ := c
    by_cases hk : b''.qEq t.amount
    · rw [show setClusterNew t ((b'', ms'') :: rest) = (b'', [t]) :: rest from by
        simp [setClusterNew, hk]] at h
      rcases List.mem_cons.mp h with h | h
      · exact Or.inr (Or.inr ⟨b'', ms'', by simp, h⟩)
      · exact Or.inl (List.mem_cons_of_mem _ h)
    · rw [show setClusterNew t ((b'', ms'') :: rest) = (b'', ms'') :: setClusterNew t rest from by
        simp [setClusterNew, hk]] at h
      rcases List.mem_cons.mp h with h | h
      · exact Or.inl (by simp [h])
      · rcases ih h with h | h | ⟨b', ms, hm, hp⟩
        · exact Or.inl (List.mem_cons_of_mem _ h)
        · exact Or.inr (Or.inl h)
        · exact Or.inr (Or.inr ⟨b', ms, List.mem_cons_of_mem _ hm, hp⟩)

theorem clusterStep_inv {v : Frac} {cs : List (Frac × List Transaction)}
    (t : Transaction) (h : ClusterInv cs) : ClusterInv (clusterStep v cs t) := by
  unfold clusterStep
  by_cases hz : t.amount.isZero
  · rw [if_pos hz]
    exact h
  · rw [if_neg hz]
    have hz' : t.amount.isZero = false := by
      cases hb : t.amount.isZero
      · rfl
      · exact absurd hb hz
    cases hf : findClusterBase t.amount v cs with
    | none =>
      intro p hp
      rcases mem_setClusterNew hp with hp | hp | ⟨b', ms, hm, hp⟩
      · exact h p hp
      · subst hp
        refine ⟨hz', ?_⟩
        intro u hu
        rw [List.mem_singleton.mp hu]
        exact hz'
      · subst hp
        refine ⟨(h (b', ms) hm).1, ?_⟩
        intro u hu
        rw [List.mem_singleton.mp hu]
        exact hz'
    | some b =>
      intro p hp
      rcases mem_appendCluster hp with hp | ⟨b', ms, hm, hp⟩
      · exact h p hp
      · subst hp
        obtain ⟨hb, hms⟩ := h (b', ms) hm
        refine ⟨hb, ?_⟩
        intro u hu
        rcases List.mem_append.mp hu with hu | hu
        · exact hms u hu
        · rw [List.mem_singleton.mp hu]
          exact hz'

theorem amountClusters_inv (ts : List Transaction) (v : Frac) :
    ClusterInv (amountClusters ts v) := by
  suffices h : ∀ cs0, ClusterInv cs0 → ClusterInv (List.foldl (clusterStep v) cs0 ts) by
    exact h [] (by intro p hp; simp at hp)
  induction ts with
  | nil => intro cs0 h0; exact h0
  | cons t rest ih =>
    intro cs0 h0
    exact ih _ (clusterStep_inv t h0)

/-! ### Helper lemmas: structure of the recurrence detector's output -/

theorem mem_idClusters {m : List Char} {cs : List (Frac × List Transaction)} {mo md : ℤ}
    {p : List Char × List Transaction} :
    ∀ {r}, p ∈ idClusters m cs mo md r → p ∈ r ∨ ∃ c ∈ cs, p = (m, c.2) := by
  induction cs with
  | nil =>
    intro r h
    exact Or.inl h
  | cons c rest ih =>
    intro r h
    have h' := ih (r := idClusterStep m mo md r c) h
    rcases h' with h' | ⟨c', hc', hp⟩
    · unfold idClusterStep at h'
      by_cases hcond : (clusterFullCond c.2 mo md && (lookupKey m r).isNone) = true
      · rw [if_pos hcond] at h'
        rcases List.mem_append.mp h' with h' | h'
        · exact Or.inl h'
        · exact Or.inr ⟨c, by simp, List.mem_singleton.mp h'⟩
      · rw [if_neg hcond] at h'
        exact Or.inl h'
    · exact Or.inr ⟨c', List.mem_cons_of_mem _ hc', hp⟩

theorem identify_entries {grouped : List (List Char × List Transaction)} {mo md : ℤ}
    {v : Frac} {p : List Char × List Transaction} :
    ∀ {r}, p ∈ List.foldl (identStep mo md v) r grouped →
      p ∈ r ∨ ∃ g ∈ grouped, ∃ c ∈ amountClusters (sortByDate g.2) v, p = (g.1, c.2) := by
  induction grouped with
  | nil =>
    intro r h
    exact Or.inl h
  | cons g rest ih =>
    intro r h
    have h' := ih (r := identStep mo md v r g) h
    rcases h' with h' | ⟨g', hg', c, hc, hp⟩
    · unfold identStep at h'
      by_cases hlen : ((g.2.length : ℤ) < mo)
      · rw [if_pos hlen] at h'
        exact Or.inl h'
      · rw [if_neg hlen] at h'
        rcases mem_idClusters h' with h' | ⟨c, hc, hp⟩
        · exact Or.inl h'
        · exact Or.inr ⟨g, by simp, c, hc, hp⟩
    · exact Or.inr ⟨g', List.mem_cons_of_mem _ hg', c, hc, hp⟩

/-! ### Helper lemmas: first-qualifying-cluster bookkeeping -/

theorem lookupKey_append_of_ne {m k : List Char} {w : List Transaction}
    (hk : k ≠ m) : ∀ (r : List (List Char × List Transaction)),
    lookupKey m (r ++ [(k, w)]) = lookupKey m r := by
  intro r
  induction r with
  | nil => simp [lookupKey, hk]
  | cons p rest ih =>
    obtain ⟨k', w'⟩ := p
    by_cases h : k' = m
    · simp [lookupKey, h]
    · simp only [List.cons_append]
      rw [show lookupKey m ((k', w') :: (rest ++ [(k, w)])) = lookupKey m (rest ++ [(k, w)]) from by
        simp [lookupKey, h], ih]
      simp [lookupKey, h]

theorem lookupKey_append_self {m : List Char} {w : List Transaction} :
    ∀ {r : List (List Char × List Transaction)}, lookupKey m r = none →
    lookupKey m (r ++ [(m, w)]) = some w := by
  intro r
  induction r with
  | nil => intro; simp [lookupKey]
  | cons p rest ih =>
    intro h
    obtain ⟨k', w'⟩ := p
    by_cases hk : k' = m
    · rw [show lookupKey m ((k', w') :: rest) = some w' from by simp [lookupKey, hk]] at h
      cases h
    · rw [show lookupKey m ((k', w') :: rest) = lookupKey m rest from by
        simp [lookupKey, hk]] at h
      simp only [List.cons_append]
      rw [show lookupKey m ((k', w') :: (rest ++ [(m, w)])) = lookupKey m (rest ++ [(m, w)]) from by
        simp [lookupKey, hk]]
      exact ih h

theorem idClusters_of_some {m : List Char} {mo md : ℤ} :
    ∀ (cs : List (Frac × List Transaction)) (r : List (List Char × List Transaction)),
      (lookupKey m r).isSome = true → idClusters m cs mo md r = r := by
  intro cs
  induction cs with
  | nil => intro r _; rfl
  | cons c rest ih =>
    intro r h
    have hstep : idClusterStep m mo md r c = r := by
      unfold idClusterStep
      rw [if_neg]
      simp only [Bool.and_eq_true]
      intro hh
      rw [Option.isNone_iff_eq_none] at hh
      rw [hh.2] at h
      cases h
    show idClusters m rest mo md (idClusterStep m mo md r c) = r
    rw [hstep]
    exact ih r h

theorem idClusters_of_none {m : List Char} {mo md : ℤ} :
    ∀ (cs : List (Frac × List Transaction)) (r : List (List Char × List Transaction)),
      lookupKey m r = none →
      idClusters m cs mo md r =
        (match cs.find? (fun c => clusterFullCond c.2 mo md) with
         | some c => r ++ [(m, c.2)]
         | none => r) := by
  intro cs
  induction cs with
  | nil => intro r _; rfl
  | cons c rest ih =>
    intro r h
    by_cases hc : clusterFullCond c.2 mo md = true
    · have hstep : idClusterStep m mo md r c = r ++ [(m, c.2)] := by
        unfold idClusterStep
        rw [if_pos (by simp [hc, h])]
      have hsome : (lookupKey m (r ++ [(m, c.2)])).isSome = true := by
        rw [lookupKey_append_self h]
        rfl
      show idClusters m rest mo md (idClusterStep m mo md r c) = _
      have hfind : List.find? (fun c => clusterFullCond c.2 mo md) (c :: rest) = some c := by
        simp [List.find?, hc]
      rw [hstep, idClusters_of_some rest _ hsome, hfind]
    · have hstep : idClusterStep m mo md r c = r := by
        unfold idClusterStep
        rw [if_neg (by simp [hc])]
      show idClusters m rest mo md (idClusterStep m mo md r c) = _
      have hfind : List.find? (fun c => clusterFullCond c.2 mo md) (c :: rest) =
          List.find? (fun c => clusterFullCond c.2 mo md) rest := by
        simp [List.find?, hc]
      rw [hstep, ih r h, hfind]

theorem lookupKey_idClusters_ne {m m' : List Char} {mo md : ℤ} (hne : m' ≠ m) :
    ∀ (cs : List (Frac × List Transaction)) (r : List (List Char × List Transaction)),
      lookupKey m (idClusters m' cs mo md r) = lookupKey m r := by
  intro cs
  induction cs with
  | nil => intro r; rfl
  | cons c rest ih =>
    intro r
    show lookupKey m (idClusters m' rest mo md (idClusterStep m' mo md r c)) = _
    rw [ih]
    unfold idClusterStep
    by_cases hcond : (clusterFullCond c.2 mo md && (lookupKey m' r).isNone) = true
    · rw [if_pos hcond, lookupKey_append_of_ne hne]
    · rw [if_neg hcond]

theorem lookupKey_identStep_ne {mo md : ℤ} {v : Frac} {m : List Char}
    {g : List Char × List Transaction} (hne : g.1 ≠ m)
    (r : List (List Char × List Transaction)) :
    lookupKey m (identStep mo md v r g) = lookupKey m r := by
  unfold identStep
  by_cases hlen : ((g.2.length : ℤ) < mo)
  · rw [if_pos hlen]
  · rw [if_neg hlen, lookupKey_idClusters_ne hne]

theorem lookupKey_identAux_not_mem {mo md : ℤ} {v : Frac} {m : List Char} :
    ∀ (grouped : List (List Char × List Transaction))
      (r : List (List Char × List Transaction)),
      (∀ g ∈ grouped, g.1 ≠ m) →
      lookupKey m (List.foldl (identStep mo md v) r grouped) = lookupKey m r := by
  intro grouped
  induction grouped with
  | nil => intro r _; rfl
  | cons g rest ih =>
    intro r h
    rw [List.foldl_cons, ih _ fun g' hg' => h g' (by simp [hg']),
      lookupKey_identStep_ne (h g (by simp)) r]

theorem c5_aux {mo md : ℤ} {v : Frac} {m : List Char} {ts : List Transaction} :
    ∀ (grouped : List (List Char × List Transaction))
      (r : List (List Char × List Transaction)),
      (grouped.map Prod.fst).Nodup → (m, ts) ∈ grouped → lookupKey m r = none →
      lookupKey m (List.foldl (identStep mo md v) r grouped) =
        (if (ts.length : ℤ) < mo then none
         else firstQualifying (amountClusters (sortByDate ts) v) mo md) := by
  intro grouped
  induction grouped with
  | nil => intro r _ hmem; cases hmem
  | cons g rest ih =>
    intro r hnodup hmem hnone
    rw [List.map_cons, List.nodup_cons] at hnodup
    obtain ⟨hhead, hnrest⟩ := hnodup
    rcases List.mem_cons.mp hmem with heq | hmemrest
    · obtain rfl : g = (m, ts) := heq.symm
      have hrest_ne : ∀ g' ∈ rest, g'.1 ≠ m := by
        intro g' hg' he
        have hm : g'.1 ∈ List.map Prod.fst rest := List.mem_map_of_mem Prod.fst hg'
        rw [he] at hm
        exact hhead hm
      rw [List.foldl_cons, lookupKey_identAux_not_mem rest _ hrest_ne]
      show lookupKey m (identStep mo md v r (m, ts)) = _
      unfold identStep
      by_cases hlen : (((m, ts).2.length : ℤ) < mo)
      · rw [if_pos hlen, if_pos (by simpa using hlen), hnone]
      · rw [if_neg hlen, if_neg (by simpa using hlen)]
        show lookupKey m (idClusters m (amountClusters (sortByDate ts) v) mo md r) = _
        rw [idClusters_of_none _ _ hnone]
        unfold firstQualifying
        cases hf : List.find? (fun c => clusterFullCond c.2 mo md)
            (amountClusters (sortByDate ts) v) with
        | none => simpa using hnone
        | some c => simpa using lookupKey_append_self hnone
    · have hg_ne : g.1 ≠ m := by
        intro he
        exact hhead (he ▸ List.mem_map_of_mem Prod.fst hmemrest)
      rw [List.foldl_cons]
      refine ih _ hnrest hmemrest ?_
      rw [lookupKey_identStep_ne hg_ne r]
      exact hnone

/-! ### Claim C1 -/

/-- C1 counterexample: the claim "an empty-key record never joins any
existing group, regardless of threshold" is false.  Two records whose
merchant texts (a space and a tab) both normalize to the empty Canonical Key
compare at similarity 100 (`fuzz.ratio` of two empty strings), so at the
default threshold 70 the second record joins the group created by the
first instead of creating its own group. -/
theorem c1_empty_keys_do_group_counterexample :
    normalize_merchant txBlank1.merchant = [] ∧
    normalize_merchant txBlank2.merchant = [] ∧
    fuzzRatio (normalize_merchant txBlank2.merchant) (normalize_merchant txBlank1.merchant) = 100 ∧
    group_similar_transactions [txBlank1, txBlank2] 70 = [([' '], [txBlank1, txBlank2])] := by
  decide

/-- C1 (amended): for every threshold of at least 1, a record with an empty
Canonical Key never joins a group whose representative's Canonical Key is
non-empty, and vice versa: within every group produced by
`group_similar_transactions`, a member's key is empty exactly when the
representative's key is empty.  (Two empty-key records, however, score 100
and do group together, and at threshold ≤ 0 everything matches.) -/
theorem c1_empty_key_separation_amended (thr : ℤ) (ts : List Transaction)
    (k : List Char) (ms : List Transaction) (t : Transaction)
    (hthr : 1 ≤ thr) (hk : (k, ms) ∈ group_similar_transactions ts thr) (ht : t ∈ ms) :
    (normalize_merchant t.merchant = [] ↔ normalize_merchant k = []) := by
  obtain ⟨t0, rest, hms, hmerch, hrest⟩ := group_inv ts thr (k, ms) hk
  have hms' : ms = t0 :: rest := hms
  have hmerch' : t0.merchant = k := hmerch
  rw [hms'] at ht
  rcases List.mem_cons.mp ht with rfl | hmem
  · rw [hmerch']
  · have hr := hrest t hmem
    constructor
    · intro he
      by_contra hne
      have h0 : fuzzRatio (normalize_merchant t.merchant) (normalize_merchant k) = 0 := by
        rw [he]
        exact fuzzRatio_nil_left _ hne
      rw [h0] at hr
      omega
    · intro he
      by_contra hne
      have h0 : fuzzRatio (normalize_merchant t.merchant) (normalize_merchant k) = 0 := by
        rw [he]
        exact fuzzRatio_nil_right _ hne
      rw [h0] at hr
      omega

/-- C1 witness: the amended statement applied to the Netflix pair at
threshold 70 (both keys non-empty). -/
theorem c1_empty_key_separation_witness :
    normalize_merchant txNetflix2.merchant = [] ↔
      normalize_merchant "Netflix #123".toList = [] :=
  c1_empty_key_separation_amended 70 [txNetflix1, txNetflix2] "Netflix #123".toList
    [txNetflix1, txNetflix2] txNetflix2 (by decide) (by decide) (by decide)

/-! ### Claim C2 -/

/-- C2 counterexample: merge counts are not monotone in the threshold.  On
the four-record input, threshold 40 merges exactly one record into a
pre-existing group while the larger threshold 50 merges two. -/
theorem c2_threshold_monotonicity_counterexample :
    (40 : ℤ) ≤ 50 ∧ mergedCount fourRecords 40 = 1 ∧ mergedCount fourRecords 50 = 2 ∧
    ¬mergedCount fourRecords 50 ≤ mergedCount fourRecords 40 := by
  decide

/-- C2 (amended): monotonicity does hold pointwise.  Against any fixed list
of existing groups, a record that finds a matching group at a threshold `u`
also finds one at every threshold `t ≤ u`; the global merge count is not
monotone because the group list itself changes (see the counterexample). -/
theorem c2_pointwise_threshold_monotonicity (n : List Char) (t u : ℤ)
    (gs : List (List Char × List Transaction)) (hle : t ≤ u)
    (h : (findMatchKey n u gs).isSome = true) :
    (findMatchKey n t gs).isSome = true := by
  induction gs with
  | nil => simp [findMatchKey] at h
  | cons g rest ih =>
    obtain ⟨k, ms⟩ := g
    by_cases hc : fuzzRatio n (normalize_merchant k) ≥ t
    · rw [show findMatchKey n t ((k, ms) :: rest) = some k from by simp [findMatchKey, hc]]
      rfl
    · have hcu : ¬fuzzRatio n (normalize_merchant k) ≥ u := fun hu => hc (le_trans hle hu)
      rw [show findMatchKey n u ((k, ms) :: rest) = findMatchKey n u rest from by
        simp [findMatchKey, hcu]] at h
      rw [show findMatchKey n t ((k, ms) :: rest) = findMatchKey n t rest from by
        simp [findMatchKey, hc]]
      exact ih h

/-- C2 witness: the satellite record matches the hub group at threshold 50,
hence also at the lower threshold 40. -/
theorem c2_pointwise_threshold_monotonicity_witness :
    (findMatchKey (normalize_merchant txSatC.merchant) 50 [("ccccdddd".toList, [txHub])]).isSome = true ∧
    (findMatchKey (normalize_merchant txSatC.merchant) 40 [("ccccdddd".toList, [txHub])]).isSome = true :=
  ⟨by decide,
   c2_pointwise_threshold_monotonicity (normalize_merchant txSatC.merchant) 40 50
     [("ccccdddd".toList, [txHub])] (by decide) (by decide)⟩

/-! ### Claim C3 -/

/-- C3 counterexample: `normalize_merchant` maps some inputs that contain
non-whitespace characters to the empty Canonical Key: a lone `'!'` (stripped
by the alphanumeric filter) and `"Mem"` (deleted whole by the suffix
regex). -/
theorem c3_nonempty_input_empty_key_counterexample :
    normalize_merchant ['!'] = [] ∧ pyIsSpace '!' = false ∧
    normalize_merchant "Mem".toList = [] ∧
    ("Mem".toList.all fun c => !pyIsSpace c) = true := by
  decide

/-- C3 (amended): the provable direction — every empty or whitespace-only
merchant text normalizes to the empty Canonical Key.  The spec's converse
("output is never empty unless the input was empty/whitespace only") fails,
as the counterexample shows. -/
theorem c3_whitespace_only_empty_key (s : List Char)
    (h : ∀ c ∈ s, pyIsSpace c = true) : normalize_merchant s = [] := by
  unfold normalize_merchant
  rw [sub1_ws h, sub2_ws h, sub3_ws h, alnumLower_ws h]
  rfl

/-- C3 witness: a concrete whitespace-only string normalizes to the empty
key. -/
theorem c3_whitespace_only_empty_key_witness :
    normalize_merchant [' ', '\t', '\n'] = [] :=
  c3_whitespace_only_empty_key [' ', '\t', '\n'] (by decide)

/-! ### Claim C4 -/

/-- C4: on the six-record scenario with default parameters (threshold 70,
`min_occurrences` 2, `max_days_between` 35, variance 0.10),
`group_similar_transactions` produces exactly 3 groups (Netflix family,
Amazon family, Grocery Store), `identify_recurring_transactions` returns
exactly the Netflix and Amazon groups, their mean member amounts
(monthly cost) are 19.99 and 14.99, and "Grocery Store" is absent from the
recurring mapping. -/
theorem c4_simple_recurrence_scenario :
    group_similar_transactions scenarioSix 70 =
      [("Netflix #123".toList, [txNetflix1, txNetflix2]),
       ("Amazon Prime*123".toList, [txAmazon1, txAmazon2, txAmazon3]),
       ("Grocery Store".toList, [txGrocery])] ∧
    identify_recurring_transactions (group_similar_transactions scenarioSix 70) 2 35 ⟨1, 10⟩ =
      [("Netflix #123".toList, [txNetflix1, txNetflix2]),
       ("Amazon Prime*123".toList, [txAmazon1, txAmazon2, txAmazon3])] ∧
    (meanAmount [txNetflix1, txNetflix2]).qEq ⟨1999, 100⟩ = true ∧
    (meanAmount [txAmazon1, txAmazon2, txAmazon3]).qEq ⟨1499, 100⟩ = true ∧
    lookupKey "Grocery Store".toList
        (identify_recurring_transactions (group_similar_transactions scenarioSix 70) 2 35 ⟨1, 10⟩) =
      none := by
  decide

/-! ### Claim C5 -/

/-- C5: at most one recurring entry is retained per merchant representative
name.  For every group `(m, ts)` of the input mapping (keys distinct, as
Python dict keys are), the entry for `m` in the result of
`identify_recurring_transactions` is exactly the member list of the first
qualifying amount cluster in cluster-creation order (and absent when the
group is too small or no cluster qualifies); later qualifying clusters are
discarded. -/
theorem c5_first_qualifying_cluster_wins (grouped : List (List Char × List Transaction))
    (mo md : ℤ) (v : Frac) (m : List Char) (ts : List Transaction)
    (hnodup : (grouped.map Prod.fst).Nodup) (hmem : (m, ts) ∈ grouped) :
    lookupKey m (identify_recurring_transactions grouped mo md v) =
      (if (ts.length : ℤ) < mo then none
       else firstQualifying (amountClusters (sortByDate ts) v) mo md) :=
  c5_aux grouped [] hnodup hmem rfl

/-- C5 witness: a merchant with two qualifying amount clusters ($10 and $100
price points, each with a regular 31-day gap) surfaces exactly the first
cluster's member list. -/
theorem c5_first_qualifying_cluster_wins_witness :
    lookupKey "Dual".toList
        (identify_recurring_transactions [("Dual".toList, dualMembers)] 2 35 ⟨1, 10⟩) =
      some [txDualA1, txDualA2] :=
  (c5_first_qualifying_cluster_wins [("Dual".toList, dualMembers)] 2 35 ⟨1, 10⟩
      "Dual".toList dualMembers (by decide) (by decide)).trans (by decide)

/-! ### Claim C6 -/

/-- C6: consecutive day gaps larger than `max_days_between` are excluded
from the interval list rather than disqualifying the cluster outright, but a
qualifying cluster's filtered interval list still has at least
`min_occurrences - 1` entries; in particular two same-merchant, same-amount
records 90 days apart do not qualify with `max_days_between = 35` (their
only gap, 90, is filtered out) and produce no entry in the returned
mapping. -/
theorem c6_gap_filtering :
    (∀ (similar : List Transaction) (mo md : ℤ),
        clusterFullCond similar mo md = true →
        ((filteredIntervals similar md).length : ℤ) ≥ mo - 1) ∧
    identify_recurring_transactions [("Gym".toList, [txGym1, txGym2])] 2 35 ⟨1, 10⟩ = [] ∧
    intervalsOf [txGym1, txGym2] = [90] ∧
    filteredIntervals [txGym1, txGym2] 35 = [] := by
  refine ⟨?_, by decide⟩
  intro similar mo md h
  unfold clusterFullCond at h
  simp only [Bool.and_eq_true] at h
  obtain ⟨⟨_, hint⟩, _⟩ := h
  unfold intervalsOK at hint
  cases hf : filteredIntervals similar md with
  | nil =>
    rw [hf] at hint
    cases hint
  | cons d ds =>
    rw [hf] at hint
    simp only [Bool.and_eq_true, decide_eq_true_eq] at hint
    exact hint.1

/-- C6 witness: the Netflix pair's cluster qualifies (one 31-day gap), so
the theorem yields the filtered-interval count bound for it. -/
theorem c6_gap_filtering_witness :
    clusterFullCond [txNetflix1, txNetflix2] 2 35 = true ∧
    ((filteredIntervals [txNetflix1, txNetflix2] 35).length : ℤ) ≥ 2 - 1 :=
  ⟨by decide, c6_gap_filtering.1 [txNetflix1, txNetflix2] 2 35 (by decide)⟩

/-! ### Claim C7 -/

/-- C7: zero-amount records are excluded everywhere: no transaction with
amount 0 appears in any amount cluster, in any member list returned by
`identify_recurring_transactions`, or in the `valid_amounts` list that is
averaged for the monthly cost. -/
theorem c7_zero_amount_exclusion :
    (∀ (ts : List Transaction) (v : Frac) (p : Frac × List Transaction),
        p ∈ amountClusters ts v → ∀ t ∈ p.2, t.amount.isZero = false) ∧
    (∀ (grouped : List (List Char × List Transaction)) (mo md : ℤ) (v : Frac)
        (p : List Char × List Transaction),
        p ∈ identify_recurring_transactions grouped mo md v →
        ∀ t ∈ p.2, t.amount.isZero = false) ∧
    (∀ (similar : List Transaction) (a : Frac),
        a ∈ validAmounts similar → a.isZero = false) := by
  refine ⟨?_, ?_, ?_⟩
  · intro ts v p hp t ht
    exact (amountClusters_inv ts v p hp).2 t ht
  · intro grouped mo md v p hp t ht
    have h : p ∈ List.foldl (identStep mo md v) [] grouped := hp
    rcases identify_entries h with h' | ⟨g, _, c, hc, hpe⟩
    · cases h'
    · subst hpe
      exact (amountClusters_inv (sortByDate g.2) v c hc).2 t ht
  · intro similar a ha
    unfold validAmounts at ha
    rcases List.mem_map.mp ha with ⟨t, htf, rfl⟩
    have hmem := List.mem_filter.mp htf
    simpa using hmem.2

/-- C7 witness: the gym records form a concrete cluster whose members all
have non-zero amounts. -/
theorem c7_zero_amount_exclusion_witness :
    ((⟨50, 1⟩ : Frac), [txGym1, txGym2]) ∈ amountClusters [txGym1, txGym2] ⟨1, 10⟩ ∧
    txGym1.amount.isZero = false :=
  ⟨by decide,
   c7_zero_amount_exclusion.1 [txGym1, txGym2] ⟨1, 10⟩ (⟨50, 1⟩, [txGym1, txGym2])
     (by decide) txGym1 (by decide)⟩

/-! ### Claim C8 -/

/-- C8: re-grouping a single produced group is idempotent.  For every group
`(k, ms)` in the output of `group_similar_transactions`, running the grouper
again on exactly `ms` (same order, same threshold) yields exactly one group
with the same representative containing all of the records. -/
theorem c8_regroup_idempotent (ts : List Transaction) (thr : ℤ) (k : List Char)
    (ms : List Transaction) (h : (k, ms) ∈ group_similar_transactions ts thr) :
    group_similar_transactions ms thr = [(k, ms)] := by
  obtain ⟨t0, rest, hms, hmerch, hrest⟩ := group_inv ts thr (k, ms) h
  have hms' : ms = t0 :: rest := hms
  have hmerch' : t0.merchant = k := hmerch
  rw [hms']
  show List.foldl (groupStep thr) [] (t0 :: rest) = [(k, t0 :: rest)]
  have h0 : groupStep thr [] t0 = [(k, [t0])] := by
    unfold groupStep
    rw [show findMatchKey (normalize_merchant t0.merchant) thr [] = none from rfl]
    show setGroupNew t0 [] = [(k, [t0])]
    simp [setGroupNew, hmerch']
  rw [List.foldl_cons, h0, regroup_aux thr k rest [t0] fun u hu => hrest u hu]
  simp

/-- C8 witness: regrouping the produced Netflix group reproduces exactly
that group. -/
theorem c8_regroup_idempotent_witness :
    group_similar_transactions [txNetflix1, txNetflix2] 70 =
      [("Netflix #123".toList, [txNetflix1, txNetflix2])] :=
  c8_regroup_idempotent scenarioSix 70 "Netflix #123".toList [txNetflix1, txNetflix2]
    (by decide)

/-! ### Claim C9 -/

/-- C9: the relative-variance comparison never divides by a zero base.  A
cluster entry whose base is zero is skipped (treated as a non-match, exactly
the `except ZeroDivisionError: continue` branch), and the zero-base case is
in fact unreachable: every base in every amount-cluster dict the detector
builds is non-zero. -/
theorem c9_zero_base_guard :
    (∀ (ts : List Transaction) (v : Frac) (p : Frac × List Transaction),
        p ∈ amountClusters ts v → p.1.isZero = false) ∧
    (∀ (amt v b : Frac) (ms : List Transaction) (cs : List (Frac × List Transaction)),
        b.isZero = true →
        findClusterBase amt v ((b, ms) :: cs) = findClusterBase amt v cs) := by
  constructor
  · intro ts v p hp
    exact (amountClusters_inv ts v p hp).1
  · intro amt v b ms cs hb
    simp [findClusterBase, hb]

/-- C9 witness: a concrete cluster base produced by the detector, shown
non-zero, and a concrete zero-base comparison being skipped. -/
theorem c9_zero_base_guard_witness :
    (((⟨50, 1⟩ : Frac), [txGym1, txGym2]) ∈ amountClusters [txGym1, txGym2] ⟨1, 10⟩ →
      Frac.isZero (⟨50, 1⟩ : Frac) = false) ∧
    findClusterBase ⟨10, 1⟩ ⟨1, 10⟩ [(⟨0, 1⟩, [txGym1]), (⟨10, 1⟩, [txGym2])] =
      findClusterBase ⟨10, 1⟩ ⟨1, 10⟩ [(⟨10, 1⟩, [txGym2])] :=
  ⟨fun hm => c9_zero_base_guard.1 [txGym1, txGym2] ⟨1, 10⟩ (⟨50, 1⟩, [txGym1, txGym2]) hm,
   c9_zero_base_guard.2 ⟨10, 1⟩ ⟨1, 10⟩ ⟨0, 1⟩ [txGym1] [(⟨10, 1⟩, [txGym2])] (by decide)⟩

/-! ### Claim C10 -/

/-- C10: a qualifying cluster's entire chronologically sorted member list is
surfaced, including members whose gap to the previous member exceeds
`max_days_between`, and those members' amounts enter the mean.  The
three-member Spotify cluster with gaps 31 and 181 days qualifies (the
181-day gap is merely dropped from the interval list), all three members are
returned, and the mean includes the long-gap member's amount 11
((10 + 10 + 11)/3 = 31/3). -/
theorem c10_long_gap_members_retained :
    identify_recurring_transactions [("Spotify".toList, [txSpot1, txSpot2, txSpot3])] 2 35 ⟨1, 10⟩ =
      [("Spotify".toList, [txSpot1, txSpot2, txSpot3])] ∧
    txSpot3.date - txSpot2.date = 181 ∧ ¬(181 : ℤ) ≤ 35 ∧
    filteredIntervals [txSpot1, txSpot2, txSpot3] 35 = [31] ∧
    (meanAmount [txSpot1, txSpot2, txSpot3]).qEq ⟨31, 3⟩ = true := by
  decide
